import Mathlib

/-!
Shallow embedding of the `merkle_toolkit` binary Merkle tree library
(`crates/merkle_toolkit/src/lib.rs`).

Digests (`[u8; 32]` in the source) are modelled as lists of bytes. The
single hashing primitive `hash_nodes` is SHA-256 over the concatenation of
the two inputs, provided by the external `sha2` crate; since its internals
are outside this repository, every operation here is parametrised by an
arbitrary combiner `hash_nodes : Digest → Digest → Digest`, so everything
proved below holds for the real SHA-256 instantiation in particular.

Rust's `Vec` indexing, `chunks(2)` and integer `/`, `%` translate to list
operations and `Nat` arithmetic; the `assert!` guards of `new`,
`get_proof` and `get_proof_optimized` (which panic) are modelled by
`Option` results, `none` standing for the panic.
-/

/-- Bytes of a digest; the source's `[u8; 32]` is a list of bytes. -/
abbrev Digest : Type := List Nat

/-- The all-zero padding digest, the source's `[0u8; 32]`. -/
def ZERO32 : Digest := List.replicate 32 0

/-- The tree store: a configured depth bound and the ordered leaf digests. -/
structure MerkleTree where
  depth : Nat
  leaves : List Digest
deriving DecidableEq

namespace MerkleTree

/-- Constructor `MerkleTree::new`: `assert!(depth <= 27)` then an empty
leaf list; the panic on a too-large depth is `none`. -/
def new (depth : Nat) : Option MerkleTree :=
  if depth ≤ 27 then some { depth := depth, leaves := [] } else none

/-- Method `append_leaf`: push the digest at the end of the leaf list. -/
def append_leaf (t : MerkleTree) (leaf : Digest) : MerkleTree :=
  { t with leaves := t.leaves ++ [leaf] }

end MerkleTree

/-- One `chunks(2)`-and-combine pass of the source's `root` loop body: a
complete pair becomes `hash_nodes(pair[0], pair[1])`, a trailing unpaired
element becomes `hash_nodes(element, [0u8; 32])`. -/
def foldLevel (hash_nodes : Digest → Digest → Digest) : List Digest → List Digest
  | [] => []
  | [a] => [hash_nodes a ZERO32]
  | a :: b :: rest => hash_nodes a b :: foldLevel hash_nodes rest

/-- Each fold pass halves the level size, rounding up. -/
theorem foldLevel_length (hash_nodes : Digest → Digest → Digest) :
    ∀ level : List Digest, (foldLevel hash_nodes level).length = (level.length + 1) / 2
  | [] => by simp [foldLevel]
  | [_] => by simp [foldLevel]
  | _ :: _ :: rest => by
    simp [foldLevel, foldLevel_length hash_nodes rest]; omega

/-- The `while level.len() > 1` loop of `MerkleTree::root`, followed by its
empty/first-element epilogue. -/
def rootLoop (hash_nodes : Digest → Digest → Digest) (level : List Digest) : Digest :=
  if 1 < level.length then rootLoop hash_nodes (foldLevel hash_nodes level)
  else if level.isEmpty then ZERO32 else level.getD 0 ZERO32
termination_by level.length
decreasing_by simp [foldLevel_length]; omega

/-- Method `MerkleTree::root`: fold the leaf list level by level. -/
def MerkleTree.root (hash_nodes : Digest → Digest → Digest) (t : MerkleTree) : Digest :=
  rootLoop hash_nodes t.leaves

/-- The sibling digest read at one level by both proof generators: flip the
low bit of the index; an out-of-bounds sibling is the zero padding digest. -/
def siblingDigest (level : List Digest) (current_index : Nat) : Digest :=
  let sibling_index := if current_index % 2 = 0 then current_index + 1 else current_index - 1
  if h : sibling_index < level.length then level.get ⟨sibling_index, h⟩ else ZERO32

/-- The `while level.len() > 1` loop of `MerkleTree::get_proof`: push this
level's sibling, fold the level, halve the index. -/
def getProofLoop (hash_nodes : Digest → Digest → Digest)
    (level : List Digest) (current_index : Nat) : List Digest :=
  if 1 < level.length then
    siblingDigest level current_index ::
      getProofLoop hash_nodes (foldLevel hash_nodes level) (current_index / 2)
  else []
termination_by level.length
decreasing_by simp [foldLevel_length]; omega

/-- Method `MerkleTree::get_proof`: `assert!(index < self.leaves.len())`
(modelled by `none`) then the naive per-level loop. -/
def MerkleTree.get_proof (hash_nodes : Digest → Digest → Digest)
    (t : MerkleTree) (index : Nat) : Option (List Digest) :=
  if index < t.leaves.length then some (getProofLoop hash_nodes t.leaves index) else none

/-- The level cache built by `MerkleTree::get_proof_optimized`: the leaf
level followed by every folded level, ending with the root level. -/
def buildLevels (hash_nodes : Digest → Digest → Digest) (level : List Digest) :
    List (List Digest) :=
  if 1 < level.length then level :: buildLevels hash_nodes (foldLevel hash_nodes level)
  else [level]
termination_by level.length
decreasing_by simp [foldLevel_length]; omega

/-- The sibling-extraction loop of `MerkleTree::get_proof_optimized` over
`&levels[..levels.len() - 1]`: read one sibling per retained level, halving
the index. -/
def extractProof : List (List Digest) → Nat → List Digest
  | [], _ => []
  | level :: rest, current_index =>
      siblingDigest level current_index :: extractProof rest (current_index / 2)

/-- Method `MerkleTree::get_proof_optimized`: bounds assertion, build all
levels once, then extract the siblings from all levels but the last. -/
def MerkleTree.get_proof_optimized (hash_nodes : Digest → Digest → Digest)
    (t : MerkleTree) (index : Nat) : Option (List Digest) :=
  if index < t.leaves.length then
    some (extractProof (buildLevels hash_nodes t.leaves).dropLast index)
  else none

/-- The `for sibling in proof` loop of `MerkleTree::verify_proof`: combine
left or right by the parity of the shrinking index. -/
def verifyLoop (hash_nodes : Digest → Digest → Digest) :
    Digest → List Digest → Nat → Digest
  | computed_hash, [], _ => computed_hash
  | computed_hash, sibling :: rest, idx =>
      verifyLoop hash_nodes
        (if idx % 2 = 0 then hash_nodes computed_hash sibling
         else hash_nodes sibling computed_hash)
        rest (idx / 2)

/-- Associated function `MerkleTree::verify_proof`: fold the proof onto the
leaf and compare with the claimed root. -/
def MerkleTree.verify_proof (hash_nodes : Digest → Digest → Digest)
    (leaf : Digest) (proof : List Digest) (index : Nat) (root : Digest) : Bool :=
  verifyLoop hash_nodes leaf proof index == root

/-- A concrete combiner standing in for SHA-256 in closed test instances:
any computable function of the two inputs serves, since every theorem below
is proved for an arbitrary combiner. -/
def testHash (a b : Digest) : Digest := (a.sum + 2 * b.sum + 1) :: a ++ b

/-- A bounds-guarded lookup with a zero fallback is a `getD` lookup. -/
theorem dite_get_eq_getD (l : List Digest) (n : Nat) :
    (if h : n < l.length then l.get ⟨n, h⟩ else ZERO32) = l.getD n ZERO32 := by
  split
  · next h => simp [List.getD_eq_getElem?_getD, List.getElem?_eq_getElem h]
  · next h =>
      simp [List.getD_eq_getElem?_getD, List.getElem?_eq_none (Nat.le_of_not_lt h)]

/-- The sibling rule as a default-valued lookup: the padding fallback of
`siblingDigest` coincides with `getD`'s default. -/
theorem siblingDigest_eq_getD (level : List Digest) (i : Nat) :
    siblingDigest level i
      = level.getD (if i % 2 = 0 then i + 1 else i - 1) ZERO32 :=
  dite_get_eq_getD level (if i % 2 = 0 then i + 1 else i - 1)

/-- Entry `j` of a folded level combines entries `2j` and `2j+1` of the
level below, `getD`'s zero default matching the source's padding. -/
theorem foldLevel_getD (hash_nodes : Digest → Digest → Digest) :
    ∀ (level : List Digest) (j : Nat), 2 * j < level.length →
      (foldLevel hash_nodes level).getD j ZERO32
        = hash_nodes (level.getD (2 * j) ZERO32) (level.getD (2 * j + 1) ZERO32)
  | [], j, h => by simp at h
  | [a], j, h => by
      have hj : j = 0 := by simp at h; omega
      subst hj
      simp [foldLevel]
  | a :: b :: rest, 0, h => by simp [foldLevel]
  | a :: b :: rest, j + 1, h => by
      have h2 : 2 * j < rest.length := by simp at h; omega
      simp only [foldLevel, List.getD_cons_succ,
        show 2 * (j + 1) = 2 * j + 1 + 1 from by ring,
        show 2 * j + 1 + 1 + 1 = (2 * j + 1) + 1 + 1 from by ring]
      exact foldLevel_getD hash_nodes rest j h2

/-- The level cache is never empty: it holds at least the leaf level. -/
theorem buildLevels_ne_nil (hash_nodes : Digest → Digest → Digest)
    (level : List Digest) : buildLevels hash_nodes level ≠ [] := by
  unfold buildLevels
  split <;> simp

/-- The naive per-level loop and the cache-then-extract loop produce the
same sibling list on every level list and index. -/
theorem getProofLoop_eq_extractProof (hash_nodes : Digest → Digest → Digest)
    (level : List Digest) (i : Nat) :
    getProofLoop hash_nodes level i
      = extractProof (buildLevels hash_nodes level).dropLast i := by
  induction level, i using getProofLoop.induct hash_nodes with
  | case1 level i h ih =>
      rw [getProofLoop, if_pos h, buildLevels, if_pos h,
        List.dropLast_cons_of_ne_nil (buildLevels_ne_nil hash_nodes _),
        extractProof, ih]
  | case2 level i h =>
      rw [getProofLoop, if_neg h, buildLevels, if_neg h]
      rfl

/-- C1: the naive generator `get_proof` and the optimized generator
`get_proof_optimized` agree on every tree and every index — identical
`some` proof on a valid index, identical failure on an invalid one. -/
theorem get_proof_eq_get_proof_optimized (hash_nodes : Digest → Digest → Digest)
    (t : MerkleTree) (index : Nat) :
    MerkleTree.get_proof hash_nodes t index
      = MerkleTree.get_proof_optimized hash_nodes t index := by
  unfold MerkleTree.get_proof MerkleTree.get_proof_optimized
  split
  · exact congrArg some (getProofLoop_eq_extractProof hash_nodes t.leaves index)
  · rfl

/-- Round-trip core: folding the naive proof for a valid index onto that
index's digest reproduces the folded root, on every level list. -/
theorem verifyLoop_getProofLoop (hash_nodes : Digest → Digest → Digest)
    (level : List Digest) (i : Nat) :
    i < level.length →
      verifyLoop hash_nodes (level.getD i ZERO32) (getProofLoop hash_nodes level i) i
        = rootLoop hash_nodes level := by
  induction level, i using getProofLoop.induct hash_nodes with
  | case1 level i h ih =>
      intro hi
      rw [getProofLoop, if_pos h]
      simp only [verifyLoop]
      have hstep :
          (if i % 2 = 0 then
            hash_nodes (level.getD i ZERO32) (siblingDigest level i)
           else hash_nodes (siblingDigest level i) (level.getD i ZERO32))
            = (foldLevel hash_nodes level).getD (i / 2) ZERO32 := by
        rw [siblingDigest_eq_getD]
        rcases Nat.mod_two_eq_zero_or_one i with h2 | h2
        · have e1 : 2 * (i / 2) = i := by omega
          rw [foldLevel_getD hash_nodes level (i / 2) (by omega), e1]
          simp [h2]
        · have e1 : 2 * (i / 2) = i - 1 := by omega
          rw [foldLevel_getD hash_nodes level (i / 2) (by omega), e1,
            show i - 1 + 1 = i from by omega]
          simp [h2]
      rw [hstep]
      conv_rhs => rw [rootLoop]
      rw [if_pos h]
      exact ih (by rw [foldLevel_length]; omega)
  | case2 level i h =>
      intro hi
      have hlen : level.length = 1 := by omega
      obtain ⟨x, rfl⟩ := List.length_eq_one.mp hlen
      have hi0 : i = 0 := by
        simp at hi
        omega
      subst hi0
      simp [getProofLoop, verifyLoop, rootLoop]

/-- C2: for every tree and every valid leaf index, verifying the proof
produced by `get_proof` for that index, with that leaf digest, against the
tree's own `root`, succeeds. -/
theorem verify_get_proof_roundtrip (hash_nodes : Digest → Digest → Digest)
    (t : MerkleTree) (i : Nat) (hi : i < t.leaves.length) :
    MerkleTree.verify_proof hash_nodes (t.leaves.getD i ZERO32)
      ((MerkleTree.get_proof hash_nodes t i).getD []) i
      (MerkleTree.root hash_nodes t) = true := by
  unfold MerkleTree.get_proof MerkleTree.verify_proof MerkleTree.root
  rw [if_pos hi, Option.getD_some,
    verifyLoop_getProofLoop hash_nodes t.leaves i hi]
  exact beq_self_eq_true _

/-- Witness for C2: the three-leaf tree of the crate's own test shape, at
index 2 (the odd, zero-padded position). -/
theorem verify_get_proof_roundtrip_witness :
    2 < ([[1], [2], [3]] : List Digest).length ∧
      MerkleTree.verify_proof testHash
        (([[1], [2], [3]] : List Digest).getD 2 ZERO32)
        ((MerkleTree.get_proof testHash { depth := 3, leaves := [[1], [2], [3]] } 2).getD [])
        2 (MerkleTree.root testHash { depth := 3, leaves := [[1], [2], [3]] }) = true :=
  ⟨by decide,
    verify_get_proof_roundtrip testHash { depth := 3, leaves := [[1], [2], [3]] } 2
      (by decide)⟩

/-- Spec-side level step, written from §4.3 of the spec: partition the
level into consecutive pairs, pair `j` holding entries `2j` and `2j+1`; a
complete pair becomes `combine(pair[0], pair[1])`; the trailing unpaired
element of an odd-length level becomes `combine(element, ZERO_32)` — the
zero padding sibling, not a duplicate of the element. -/
def specNextLevel (hash_nodes : Digest → Digest → Digest) (level : List Digest) :
    List Digest :=
  (List.range ((level.length + 1) / 2)).map fun j =>
    if 2 * j + 1 < level.length then
      hash_nodes (level.getD (2 * j) ZERO32) (level.getD (2 * j + 1) ZERO32)
    else hash_nodes (level.getD (2 * j) ZERO32) ZERO32

/-- Spec-side root, written from §4.3 of the spec: repeat the pair
partition step until exactly one digest remains; that digest is the root. -/
def specRoot (hash_nodes : Digest → Digest → Digest) (level : List Digest) : Digest :=
  if 1 < level.length then specRoot hash_nodes (specNextLevel hash_nodes level)
  else level.headD ZERO32
termination_by level.length
decreasing_by simp [specNextLevel]; omega

/-- The source's `chunks(2)` pass is the spec's pair partition step. -/
theorem foldLevel_eq_specNextLevel (hash_nodes : Digest → Digest → Digest) :
    ∀ level : List Digest, foldLevel hash_nodes level = specNextLevel hash_nodes level
  | [] => by simp [foldLevel, specNextLevel]
  | [a] => by
      unfold foldLevel specNextLevel
      simp only [List.length_singleton]
      rw [show ((1 : Nat) + 1) / 2 = 1 from by norm_num, List.range_succ, List.range_zero]
      simp
  | a :: b :: rest => by
      rw [foldLevel, foldLevel_eq_specNextLevel hash_nodes rest]
      unfold specNextLevel
      simp only [List.length_cons]
      rw [show (rest.length + 1 + 1 + 1) / 2 = (rest.length + 1) / 2 + 1 from by omega,
        List.range_succ_eq_map, List.map_cons, List.map_map]
      congr 1
      · simp
      · congr 1
        funext j
        simp only [Function.comp_apply]
        rw [show 2 * Nat.succ j = 2 * j + 1 + 1 from by omega]
        simp only [List.getD_cons_succ]
        by_cases hc : 2 * j + 1 < rest.length
        · rw [if_pos (by omega : 2 * j + 1 + 1 + 1 < rest.length + 1 + 1), if_pos hc]
        · rw [if_neg (by omega : ¬2 * j + 1 + 1 + 1 < rest.length + 1 + 1), if_neg hc]

/-- The source's root loop computes the spec's repeated pair partition on
every non-empty level list. -/
theorem rootLoop_eq_specRoot (hash_nodes : Digest → Digest → Digest)
    (level : List Digest) :
    level ≠ [] → rootLoop hash_nodes level = specRoot hash_nodes level := by
  induction level using rootLoop.induct hash_nodes with
  | case1 level h ih =>
      intro _
      rw [rootLoop, if_pos h, specRoot, if_pos h, ← foldLevel_eq_specNextLevel]
      apply ih
      apply List.ne_nil_of_length_pos
      rw [foldLevel_length]
      omega
  | case2 level h hemp =>
      intro hne
      exact absurd (List.isEmpty_iff.mp hemp) hne
  | case3 level h hemp =>
      intro hne
      rw [rootLoop, if_neg h, specRoot, if_neg h, if_neg hemp]
      cases level with
      | nil => exact absurd rfl hne
      | cons x xs => simp

/-- C3: on every non-empty leaf sequence, `root` computes exactly the
spec's repeated pair partition — complete pairs combined in order, a
trailing unpaired element combined with the all-zero padding digest (not
with a duplicate of itself), down to a single digest. -/
theorem root_eq_specRoot (hash_nodes : Digest → Digest → Digest)
    (t : MerkleTree) (h : t.leaves ≠ []) :
    MerkleTree.root hash_nodes t = specRoot hash_nodes t.leaves :=
  rootLoop_eq_specRoot hash_nodes t.leaves h

/-- Witness for C3 at a three-leaf tree, exercising the odd trailing
element. -/
theorem root_eq_specRoot_witness :
    ({ depth := 3, leaves := [[1], [2], [3]] } : MerkleTree).leaves ≠ [] ∧
      MerkleTree.root testHash { depth := 3, leaves := [[1], [2], [3]] }
        = specRoot testHash ({ depth := 3, leaves := [[1], [2], [3]] } : MerkleTree).leaves :=
  ⟨by decide, root_eq_specRoot testHash { depth := 3, leaves := [[1], [2], [3]] } (by decide)⟩

/-- C4: the root of a tree with no leaves is the all-zero sentinel, for
every combiner — in particular the result never depends on the hash
function, which is therefore never invoked. -/
theorem root_empty_eq_zero (hash_nodes : Digest → Digest → Digest) (depth : Nat) :
    MerkleTree.root hash_nodes { depth := depth, leaves := [] } = ZERO32 := by
  rw [MerkleTree.root, rootLoop]
  simp

/-- Spec-side verification walk, written from §4.6 of the spec: step `k`
combines left or right by bit `k` of the right-shifting index. -/
def specVerifyGo (hash_nodes : Digest → Digest → Digest) (index : Nat) :
    Nat → Digest → List Digest → Digest
  | _, computed, [] => computed
  | k, computed, sibling :: rest =>
      specVerifyGo hash_nodes index (k + 1)
        (if (index >>> k) % 2 = 0 then hash_nodes computed sibling
         else hash_nodes sibling computed)
        rest

/-- Spec-side final digest of the verification walk: fold the whole proof
onto the leaf, reading one index bit per sibling. -/
def specVerifyFold (hash_nodes : Digest → Digest → Digest)
    (leaf : Digest) (proof : List Digest) (index : Nat) : Digest :=
  specVerifyGo hash_nodes index 0 leaf proof

/-- The source's verification loop carries out the spec's bit walk, at
every shift offset. -/
theorem verifyLoop_eq_specVerifyGo (hash_nodes : Digest → Digest → Digest)
    (index : Nat) :
    ∀ (proof : List Digest) (k : Nat) (computed : Digest),
      verifyLoop hash_nodes computed proof (index >>> k)
        = specVerifyGo hash_nodes index k computed proof
  | [], k, computed => rfl
  | sibling :: rest, k, computed => by
      simp only [verifyLoop, specVerifyGo]
      rw [← Nat.shiftRight_succ]
      exact verifyLoop_eq_specVerifyGo hash_nodes index rest (k + 1) _

/-- C5: `verify_proof` is the pure four-argument function of §4.6 — it
folds each sibling in proof order, combining on the left or the right by
the current bit of the right-shifting index, and returns `true` exactly
when the final digest equals the claimed root; any mismatch (wrong-length
proof, wrong index, tampered bytes) only makes that equality fail, it is
total and never aborts. -/
theorem verify_proof_spec (hash_nodes : Digest → Digest → Digest)
    (leaf : Digest) (proof : List Digest) (index : Nat) (root : Digest) :
    MerkleTree.verify_proof hash_nodes leaf proof index root = true ↔
      specVerifyFold hash_nodes leaf proof index = root := by
  rw [MerkleTree.verify_proof, specVerifyFold,
    ← verifyLoop_eq_specVerifyGo hash_nodes index proof 0 leaf,
    Nat.shiftRight_zero]
  exact beq_iff_eq

/-- C6: each proof generator fails exactly when the requested index is not
a valid leaf index, i.e. when it reaches the leaf count or beyond. -/
theorem get_proof_bounds (hash_nodes : Digest → Digest → Digest)
    (t : MerkleTree) (index : Nat) :
    (MerkleTree.get_proof hash_nodes t index = none ↔ t.leaves.length ≤ index) ∧
      (MerkleTree.get_proof_optimized hash_nodes t index = none
        ↔ t.leaves.length ≤ index) := by
  unfold MerkleTree.get_proof MerkleTree.get_proof_optimized
  constructor <;> split <;> rename_i h <;> simp <;> omega

/-- C7: the constructor succeeds with the given depth and no leaves
exactly for depth at most 27, and fails exactly beyond it. -/
theorem new_spec (depth : Nat) :
    (MerkleTree.new depth = some { depth := depth, leaves := [] } ↔ depth ≤ 27) ∧
      (MerkleTree.new depth = none ↔ 27 < depth) := by
  unfold MerkleTree.new
  split <;> rename_i h <;> simp <;> omega

/-- C8: `append_leaf` always succeeds (it is a total function into
`MerkleTree`, not an `Option`), appends the digest at the end of the leaf
sequence, leaves the depth unchanged, and performs no check against
`2 ^ depth` — witnessed by a depth-0 tree carrying two leaves. -/
theorem append_leaf_spec (t : MerkleTree) (leaf : Digest) :
    (t.append_leaf leaf).leaves = t.leaves ++ [leaf] ∧
      (t.append_leaf leaf).depth = t.depth ∧
      2 ^ ((({ depth := 0, leaves := [] } : MerkleTree).append_leaf
            ZERO32).append_leaf ZERO32).depth
        < ((({ depth := 0, leaves := [] } : MerkleTree).append_leaf
            ZERO32).append_leaf ZERO32).leaves.length :=
  ⟨rfl, rfl, by decide⟩

/-- C9: a one-leaf tree has its leaf as root, both generators give it the
empty proof at index 0, and the empty proof verifies against that root. -/
theorem single_leaf_spec (hash_nodes : Digest → Digest → Digest)
    (depth : Nat) (leaf : Digest) :
    MerkleTree.root hash_nodes { depth := depth, leaves := [leaf] } = leaf ∧
      MerkleTree.get_proof hash_nodes { depth := depth, leaves := [leaf] } 0 = some [] ∧
      MerkleTree.get_proof_optimized hash_nodes { depth := depth, leaves := [leaf] } 0
        = some [] ∧
      MerkleTree.verify_proof hash_nodes leaf [] 0 leaf = true := by
  refine ⟨?_, ?_, ?_, ?_⟩
  · rw [MerkleTree.root, rootLoop]
    simp
  · rw [MerkleTree.get_proof]
    simp [getProofLoop]
  · rw [MerkleTree.get_proof_optimized]
    simp [buildLevels, extractProof]
  · rw [MerkleTree.verify_proof]
    simp [verifyLoop]

/-- The verification loop reads only the low bits of its index: one bit
per sibling consumed. -/
theorem verifyLoop_mod (hash_nodes : Digest → Digest → Digest) :
    ∀ (proof : List Digest) (computed : Digest) (index : Nat),
      verifyLoop hash_nodes computed proof (index % 2 ^ proof.length)
        = verifyLoop hash_nodes computed proof index
  | [], _, _ => rfl
  | sibling :: rest, computed, index => by
      simp only [verifyLoop, List.length_cons]
      have hm : index % 2 ^ (rest.length + 1) % 2 = index % 2 := by
        rw [pow_succ, mul_comm]
        exact Nat.mod_mul_right_mod index 2 (2 ^ rest.length)
      have hd : index % 2 ^ (rest.length + 1) / 2 = index / 2 % 2 ^ rest.length := by
        rw [pow_succ, mul_comm]
        exact Nat.mod_mul_right_div_self index 2 (2 ^ rest.length)
      simp only [hm, hd]
      exact verifyLoop_mod hash_nodes rest _ (index / 2)

/-- C10: `verify_proof` depends on the index only through its low
`proof.length` bits — reducing the index modulo `2 ^ proof.length` gives
the same result, so shifting it by any multiple of `2 ^ proof.length`
changes nothing. -/
theorem verify_proof_index_mod (hash_nodes : Digest → Digest → Digest)
    (leaf : Digest) (proof : List Digest) (index : Nat) (root : Digest) :
    (MerkleTree.verify_proof hash_nodes leaf proof index root
      = MerkleTree.verify_proof hash_nodes leaf proof (index % 2 ^ proof.length) root) ∧
      ∀ k : Nat,
        MerkleTree.verify_proof hash_nodes leaf proof (index + k * 2 ^ proof.length) root
          = MerkleTree.verify_proof hash_nodes leaf proof index root := by
  constructor
  · unfold MerkleTree.verify_proof
    rw [verifyLoop_mod]
  · intro k
    unfold MerkleTree.verify_proof
    rw [← verifyLoop_mod hash_nodes proof leaf (index + k * 2 ^ proof.length),
      Nat.add_mul_mod_self_right, verifyLoop_mod]
